import Mathlib

/-!
Verification development for the conflux prefix-tree (mongo-backed backend,
`recon/mgo/ptree.go`) and the finite-field layer (`zp.go`).

Modelling conventions, stated once:
* Go `big.Int` values are Lean `Int`; Go `big.Int.Mod` is Euclidean remainder,
  which is Lean's `Int.emod`.
* The conflux `Bitstring` (bit get/set/unset over a bounded bit sequence) is a
  `List Bool`; `WriteBitstring`/`ReadBitstring` are a lossless round-trip per the
  spec, so serialized keys are identified with their bit lists.  A `Set`/`Unset`
  at a position outside the bitstring is modelled as a no-op (`List.set` out of
  range); the Go backing array would either set a padding bit or panic there —
  every disambiguation is noted where it matters.
* `WriteZZarray`/`ReadZZarray` (package conflux, not in the sources under
  review) are modelled from the spec as a length-prefixed sequence of
  big-integer encodings, each encoding one token of the stream; a read consumes
  exactly one length-prefixed array and ignores trailing bytes.
* A Go `panic` and a returned Go `error` are both `Except.error`; the node
  store is a key-to-record association list.  The insert/split code in
  `ptree.go` contains no store write call at all, so every operation takes the
  store read-only; the store after an operation is the store before it.
-/

deriving instance DecidableEq for Except

/-- Tree-level configuration: the field prime, the sample points
(`Zpoints(P_SKS, NumSamples())`), `bitQuantum`, `splitThreshold`, and the bit
length of element keys (`P_SKS.BitLen()`). -/
structure Config where
  p : Int
  points : List Int
  bitQuantum : Nat
  splitThreshold : Nat
  keyBits : Nat
deriving DecidableEq, Repr

/-- The persisted node record (`nodeData` in ptree.go): serialized key,
element count, serialized sample values, serialized leaf payload, child keys. -/
structure nodeData where
  key : List Bool
  numElements : Nat
  svalues : List Int
  elements : List Int
  childKeys : List Nat
deriving DecidableEq, Repr

/-- The node store: an association list from raw key bytes (modelled as bit
lists) to node records. -/
abbrev Store := List (List Bool × nodeData)

/-- Fetch a node record by exact key (`prefixTree.Node` / the mongo query). -/
def fetch (store : Store) (k : List Bool) : Option nodeData :=
  match store.find? (fun e => e.1 == k) with
  | some e => some e.2
  | none => none

/-- Failure conditions: mongo NotFound, malformed stored arrays (a Go panic),
a sample-count mismatch (a Go panic), dereferencing a child of a leaf
(`NextChild` panic), fuel exhaustion of the embedding, and the `Remove` panic. -/
inductive PErr where
  | notFound
  | malformedRecord
  | inconsistentSamples
  | leafNode
  | outOfFuel
  | removeNotImpl
deriving DecidableEq, Repr

/-- Modelled from the spec: `WriteZZarray` emits a length-prefixed sequence of
big-integer encodings (here: the length token followed by one token per
element). -/
def WriteZZarray (arr : List Int) : List Int :=
  (arr.length : Int) :: arr

/-- Modelled from the spec: `ReadZZarray` reads one length prefix and then
exactly that many encodings, leaving any trailing data unconsumed; it fails on
a truncated or absent array. -/
def ReadZZarray (buf : List Int) : Option (List Int) :=
  match buf with
  | [] => none
  | len :: rest =>
    if 0 ≤ len ∧ len.toNat ≤ rest.length then some (rest.take len.toNat) else none

/-- `NewBitstring(n)`: a zeroed bit sequence of length `n`. -/
def bsNew (n : Nat) : List Bool :=
  List.replicate n false

/-- `Bitstring.SetBytes`: copy the source bits into the target from position 0,
zero-filling any positions past the source. -/
def bsSetBytes (target src : List Bool) : List Bool :=
  (List.range target.length).map (fun i => src.getD i false)

/-- `Bitstring.Set`: set one bit (no-op outside the bitstring, see header). -/
def bsSet (bs : List Bool) (k : Nat) : List Bool :=
  bs.set k true

/-- `Bitstring.Unset`: clear one bit (no-op outside the bitstring). -/
def bsUnset (bs : List Bool) (k : Nat) : List Bool :=
  bs.set k false

/-- The `bitQuantum`-bit child-index suffix: bit `j` of `i` at offset `j`,
exactly the `(i>>uint(j))&0x1 == 1` loop of `newChildNode` and `Children`. -/
def idxBits (q i : Nat) : List Bool :=
  (List.range q).map (fun j => (i >>> j) &&& 1 == 1)

/-- The child-key construction shared by `newChildNode` (and intended by
`Children`): start from a fresh bitstring of the given length, copy the parent
key in, then set/unset the `bitQuantum` positions after the parent key from the
child index. -/
def appendIdx (len : Nat) (pk : List Bool) (q i : Nat) : List Bool :=
  (List.range q).foldl
    (fun ck j =>
      if (i >>> j) &&& 1 == 1 then bsSet ck (pk.length + j)
      else bsUnset ck (pk.length + j))
    (bsSetBytes (bsNew len) pk)

/-- `prefixNode.IsLeaf`: a node is a leaf iff it has no child keys. -/
def IsLeaf (n : nodeData) : Bool :=
  n.childKeys.isEmpty

/-- `newChildNode(parent, childIndex)`: a fresh zeroed record whose key is
built in a bitstring of length `parent key length + bitQuantum`. -/
def newChildNode (cfg : Config) (parent : nodeData) (childIndex : Nat) : nodeData :=
  { key := appendIdx (parent.key.length + cfg.bitQuantum) parent.key cfg.bitQuantum childIndex
    numElements := 0
    svalues := []
    elements := []
    childKeys := [] }

/-- `prefixNode.Children`: loops `i` from `0` to `BitQuantum()` (sic — not
`1 << BitQuantum()`), builds each candidate key in a bitstring of the *parent's*
length (sic — `NewBitstring(key.BitLen())`), and fetches it, panicking on a
missing node.  No leaf check is performed. -/
def Children (cfg : Config) (store : Store) (n : nodeData) : Except PErr (List nodeData) :=
  (List.range cfg.bitQuantum).mapM (fun i =>
    match fetch store (appendIdx n.key.length n.key cfg.bitQuantum i) with
    | some c => Except.ok c
    | none => Except.error PErr.notFound)

/-- `prefixNode.Parent`: none for the zero-length key; otherwise copy the key
into a bitstring `bitQuantum` bits shorter and fetch it, panicking on a missing
node. -/
def Parent (cfg : Config) (store : Store) (n : nodeData) : Except PErr (Option nodeData) :=
  if n.key = [] then Except.ok none
  else
    match fetch store (bsSetBytes (bsNew (n.key.length - cfg.bitQuantum)) n.key) with
    | some p => Except.ok (some p)
    | none => Except.error PErr.notFound

/-- Modelled from the spec: `AddElementArray(t, z)` is the delta vector
`[point_j − z]` over the tree's sample points, in the field. -/
def AddElementArray (cfg : Config) (z : Int) : List Int :=
  cfg.points.map (fun pt => (pt - z).emod cfg.p)

/-- Modelled from the spec: the element's trie key reverses the byte order of
its canonical big-endian encoding, so the key reads the element's bits from the
low-order end; `keyBits` is the field bit length. -/
def elementKey (cfg : Config) (z : Int) : List Bool :=
  (List.range cfg.keyBits).map (fun i => z.toNat.testBit i)

/-- Modelled from the spec: `NextChild(n, bs, depth)` selects the child whose
key is `n`'s key followed by the next `bitQuantum` bits of `bs` at the current
depth; it panics on a leaf, and on a missing child record. -/
def NextChild (cfg : Config) (store : Store) (n : nodeData) (bs : List Bool) (depth : Nat) :
    Except PErr nodeData :=
  if IsLeaf n then Except.error PErr.leafNode
  else
    match fetch store (n.key ++ (bs.drop (depth * cfg.bitQuantum)).take cfg.bitQuantum) with
    | some c => Except.ok c
    | none => Except.error PErr.notFound

/-- The in-place multiplication loop of `updateSvalues`: entry `i` becomes
`svalues[i] * marray[i] mod p` (a fresh receiver `Z(z.P)` holds each product),
entries past `marray` are untouched. -/
def mulSvalues (p : Int) (sv marray : List Int) : List Int :=
  List.zipWith (fun s m => (s * m).emod p) sv marray ++ sv.drop marray.length

/-- `prefixNode.updateSvalues`: panics unless `marray` matches the tree's
sample-point count, reads the stored svalues (panicking when malformed, or when
the array is too short for the index loop), multiplies pointwise and writes the
array back. -/
def updateSvalues (cfg : Config) (n : nodeData) (marray : List Int) : Option nodeData :=
  if marray.length = cfg.points.length then
    match ReadZZarray n.svalues with
    | none => none
    | some sv =>
      if marray.length ≤ sv.length then
        some { n with svalues := WriteZZarray (mulSvalues cfg.p sv marray) }
      else none
  else none

mutual

/-- `prefixNode.insert`: update the svalues, bump `numElements`; on a leaf
either split (when the serialized payload length exceeds the threshold) and
fall through to the child recursion, or append the element to the payload and
stop — the output buffer is seeded with the existing payload bytes
(`bytes.NewBuffer(n.elements)`), so the new serialization is appended after the
old one.  Returns the (pre, post) records of every node visited, root first;
the store is never written. -/
def insertNode (fuel : Nat) (cfg : Config) (store : Store) (n : nodeData)
    (z : Int) (marray : List Int) (bs : List Bool) (depth : Nat) :
    Except PErr (List (nodeData × nodeData)) :=
  match fuel with
  | 0 => Except.error PErr.outOfFuel
  | fuel + 1 =>
    match updateSvalues cfg n marray with
    | none => Except.error PErr.inconsistentSamples
    | some n1 =>
      let n2 := { n1 with numElements := n1.numElements + 1 }
      if IsLeaf n2 then
        if cfg.splitThreshold < n2.elements.length then
          match splitNode fuel cfg store n2 depth with
          | Except.error e => Except.error e
          | Except.ok n3 =>
            match NextChild cfg store n3 bs depth with
            | Except.error e => Except.error e
            | Except.ok child =>
              match insertNode fuel cfg store child z marray bs (depth + 1) with
              | Except.error e => Except.error e
              | Except.ok path => Except.ok ((n, n3) :: path)
        else
          match ReadZZarray n2.elements with
          | none => Except.error PErr.malformedRecord
          | some elts =>
            Except.ok [(n, { n2 with elements := n2.elements ++ WriteZZarray (elts ++ [z]) })]
      else
        match NextChild cfg store n2 bs depth with
        | Except.error e => Except.error e
        | Except.ok child =>
          match insertNode fuel cfg store child z marray bs (depth + 1) with
          | Except.error e => Except.error e
          | Except.ok path => Except.ok ((n, n2) :: path)

/-- The per-element loop of `prefixNode.split`: for each stored element,
rebuild its key, dereference the matching child of the node being split
(`NextChild(n, bs, depth)` — a panic, since `n` still has no child keys), and
re-insert; the error returned by the re-insert is discarded (ptree.go:374).
Fuel is consumed per element only so that the mutual recursion is structural. -/
def splitLoop (fuel : Nat) (cfg : Config) (store : Store) (n : nodeData)
    (depth : Nat) (elts : List Int) : Except PErr Unit :=
  match fuel with
  | 0 => Except.error PErr.outOfFuel
  | fuel + 1 =>
    match elts with
    | [] => Except.ok ()
    | element :: rest =>
      match NextChild cfg store n (elementKey cfg element) depth with
      | Except.error e => Except.error e
      | Except.ok child =>
        let _ins := insertNode fuel cfg store child element (AddElementArray cfg element)
          (elementKey cfg element) (depth + 1)
        splitLoop fuel cfg store n depth rest

/-- `prefixNode.split`: create `1 << bitQuantum` fresh child records (their
values are discarded — the source neither persists them nor records them in
`childKeys`), move the stored elements through `splitLoop`, then clear the leaf
payload. -/
def splitNode (fuel : Nat) (cfg : Config) (store : Store) (n : nodeData) (depth : Nat) :
    Except PErr nodeData :=
  match fuel with
  | 0 => Except.error PErr.outOfFuel
  | fuel + 1 =>
    let _newChildren := (List.range (1 <<< cfg.bitQuantum)).map (fun i => newChildNode cfg n i)
    match ReadZZarray n.elements with
    | none => Except.error PErr.malformedRecord
    | some elts =>
      match splitLoop fuel cfg store n depth elts with
      | Except.error e => Except.error e
      | Except.ok _ => Except.ok { n with elements := [] }

end

/-- `prefixTree.Insert`: build the element's key, fetch the root (zero-length
key), and run the recursive insert at depth 0 with the delta vector computed
once at the tree level. -/
def treeInsert (fuel : Nat) (cfg : Config) (store : Store) (z : Int) :
    Except PErr (List (nodeData × nodeData)) :=
  match fetch store [] with
  | none => Except.error PErr.notFound
  | some root => insertNode fuel cfg store root z (AddElementArray cfg z) (elementKey cfg z) 0

/-- `prefixTree.Remove`: `panic("remove not impl")` before touching anything —
the failure is raised immediately and the store is returned unchanged. -/
def treeRemove (store : Store) (_z : Int) : Except PErr Unit × Store :=
  (Except.error PErr.removeNotImpl, store)

/-- The finite-field value (`Zp` in zp.go): a big integer together with its
prime modulus `P`. -/
structure Zp where
  val : Int
  P : Int
deriving DecidableEq, Repr

/-- `Zp.Norm`: reduce the value modulo `P` (Go `big.Int.Mod` is Euclidean,
i.e. `Int.emod`). -/
def Zp.Norm (zp : Zp) : Zp :=
  { zp with val := zp.val.emod zp.P }

/-- `NewZp(p, n)`: the integer `n` in the field of modulus `p`, normalized. -/
def NewZp (p n : Int) : Zp :=
  Zp.Norm { val := n, P := p }

/-- `Z(p)`: a fresh zero-valued receiver in the field of modulus `p`. -/
def Z (p : Int) : Zp :=
  { val := 0, P := p }

/-- `Zp.Add` as a value function: `assertP` (a panic, hence `none`, on a
modulus mismatch between receiver and operands), then sum and normalize into
the receiver. -/
def Zp.Add (zp x y : Zp) : Option Zp :=
  if zp.P = x.P ∧ zp.P = y.P then some (Zp.Norm { zp with val := x.val + y.val }) else none

/-- `Zp.Mul` as a value function: `assertP`, then product, normalized into the
receiver. -/
def Zp.Mul (zp x y : Zp) : Option Zp :=
  if zp.P = x.P ∧ zp.P = y.P then some (Zp.Norm { zp with val := x.val * y.val }) else none

/-- A heap of `Zp` cells addressed by pointer identity, for the aliasing
behaviour of the receiver-mutating operations. -/
def ZpHeap : Type :=
  Nat → Zp

/-- Update one heap cell. -/
def heapUpd (h : ZpHeap) (r : Nat) (v : Zp) : ZpHeap :=
  fun k => if k = r then v else h k

/-- `zp.Add(x, y)` at the pointer level: `assertP`, store the normalized sum in
the receiver cell, and return the receiver pointer itself. -/
def zpAddRef (h : ZpHeap) (zp x y : Nat) : Option (Nat × ZpHeap) :=
  if (h zp).P = (h x).P ∧ (h zp).P = (h y).P then
    some (zp, heapUpd h zp (Zp.Norm { h zp with val := (h x).val + (h y).val }))
  else none

/-- `zp.Mul(x, y)` at the pointer level: `assertP`, store the normalized
product in the receiver cell, and return the receiver pointer itself. -/
def zpMulRef (h : ZpHeap) (zp x y : Nat) : Option (Nat × ZpHeap) :=
  if (h zp).P = (h x).P ∧ (h zp).P = (h y).P then
    some (zp, heapUpd h zp (Zp.Norm { h zp with val := (h x).val * (h y).val }))
  else none

/-- Concrete configuration: `Z(7)`, two sample points, `bitQuantum 1`,
`splitThreshold 10`. -/
def cfgA : Config :=
  { p := 7, points := [3, 5], bitQuantum := 1, splitThreshold := 10, keyBits := 4 }

/-- A root leaf with no elements and unit svalues `[1, 1]` (serialized
`[2, 1, 1]`). -/
def rootA : nodeData :=
  { key := [], numElements := 0, svalues := [2, 1, 1], elements := [0], childKeys := [] }

/-- A store holding only `rootA`. -/
def storeA : Store :=
  [([], rootA)]

/-- The in-memory root record after inserting `2` into `storeA`. -/
def rootAafter : nodeData :=
  { key := [], numElements := 1, svalues := [2, 1, 3], elements := [0, 1, 2], childKeys := [] }

/-- The in-memory root record after inserting `3` into `storeA`. -/
def rootAafter3 : nodeData :=
  { key := [], numElements := 1, svalues := [2, 0, 2], elements := [0, 1, 3], childKeys := [] }

/-- A root leaf holding the single element `5` (serialized `[1, 5]`). -/
def leaf2 : nodeData :=
  { key := [], numElements := 1, svalues := [2, 1, 1], elements := [1, 5], childKeys := [] }

/-- A store holding only `leaf2`. -/
def store2 : Store :=
  [([], leaf2)]

/-- The in-memory record after inserting `2` into `leaf2`: the stored payload
is the old serialization followed by the new one. -/
def leaf2after : nodeData :=
  { key := [], numElements := 2, svalues := [2, 1, 3], elements := [1, 5, 2, 5, 2], childKeys := [] }

/-- The configuration `cfgA` with `splitThreshold 1`, so `leaf2`'s payload of
serialized length 2 triggers a split on the next insert. -/
def cfgB : Config :=
  { p := 7, points := [3, 5], bitQuantum := 1, splitThreshold := 1, keyBits := 4 }

/-- A root leaf with an empty element list (serialized `[0]`). -/
def leaf4 : nodeData :=
  { key := [], numElements := 0, svalues := [2, 1, 1], elements := [0], childKeys := [] }

/-- A store holding only `leaf4`. -/
def store4 : Store :=
  [([], leaf4)]

/-- `leaf4` after `splitNode` ran its (empty) redistribution loop: payload
cleared, but `childKeys` still empty — the node is still a leaf. -/
def leaf4split : nodeData :=
  { key := [], numElements := 0, svalues := [2, 1, 1], elements := [], childKeys := [] }

/-- Configuration with `bitQuantum 2`, so an internal node must have
`2^2 = 4` children. -/
def cfgC : Config :=
  { p := 7, points := [3, 5], bitQuantum := 2, splitThreshold := 10, keyBits := 4 }

/-- An internal root whose four children are all present in `storeC`. -/
def rootC : nodeData :=
  { key := [], numElements := 4, svalues := [2, 1, 1], elements := [], childKeys := [0, 1, 2, 3] }

/-- A well-formed two-level store: the internal root `rootC` and its four
children, one per 2-bit index. -/
def storeC : Store :=
  [([], rootC),
   ([false, false],
    { key := [false, false], numElements := 1, svalues := [2, 1, 1], elements := [0], childKeys := [] }),
   ([true, false],
    { key := [true, false], numElements := 1, svalues := [2, 1, 1], elements := [0], childKeys := [] }),
   ([false, true],
    { key := [false, true], numElements := 1, svalues := [2, 1, 1], elements := [0], childKeys := [] }),
   ([true, true],
    { key := [true, true], numElements := 1, svalues := [2, 1, 1], elements := [0], childKeys := [] })]

/-- A leaf node with key `[true, false]`. -/
def leafC : nodeData :=
  { key := [true, false], numElements := 1, svalues := [2, 1, 1], elements := [0], childKeys := [] }

/-- A store holding only the leaf `leafC` (no other key is claimed to exist). -/
def storeLeafC : Store :=
  [([true, false], leafC)]

/-- A concrete `Zp` heap: cell `k` holds the value `k` in the field of
modulus 7. -/
def heapBase : ZpHeap :=
  fun k => { val := (k : Int), P := 7 }

/-- C6: for every store and element, `Remove` fails with the explicit
unsupported-operation condition, never returns success, and leaves every
stored node record unchanged. -/
theorem remove_unsupported_store_unchanged :
    ∀ (store : Store) (z : Int),
      (treeRemove store z).1 = Except.error PErr.removeNotImpl ∧
      (∀ u : Unit, (treeRemove store z).1 ≠ Except.ok u) ∧
      (treeRemove store z).2 = store := by
  intro store z
  refine ⟨rfl, ?_, rfl⟩
  intro u h
  cases h

/-- C1 fails on the code: `Children` loops over `bitQuantum` indices, not
`2^bitQuantum`, and builds each candidate key in a bitstring of the parent's
own length, so with `bitQuantum = 2` it returns two copies of the parent's own
record instead of the four children (all four are present in `storeC`); on a
leaf it does not return the empty list either — it returns two copies of the
leaf instead of `[]`. -/
theorem children_fanout_bug :
    Children cfgC storeC rootC = Except.ok [rootC, rootC] ∧
    rootC.childKeys ≠ [] ∧
    (2 : Nat) ^ cfgC.bitQuantum = 4 ∧
    ([rootC, rootC] : List nodeData).length ≠ 4 ∧
    IsLeaf leafC = true ∧
    Children cfgC storeLeafC leafC = Except.ok [leafC, leafC] ∧
    Children cfgC storeLeafC leafC ≠ Except.ok [] := by decide

/-- C2 fails on the code: inserting `2` into the leaf `leaf2` (stored element
list `[5]`, serialized length `2 ≤ splitThreshold = 10`, so no split) stops at
the leaf, but because the output buffer is seeded with the old payload bytes
the stored payload becomes `ser [5] ++ ser [5, 2]`, which decodes to the old
list `[5]`, not to `[5] ++ [2]`. -/
theorem leaf_append_payload_bug :
    leaf2.elements.length ≤ cfgA.splitThreshold ∧
    treeInsert 5 cfgA store2 2 = Except.ok [(leaf2, leaf2after)] ∧
    leaf2after.elements = WriteZZarray [5] ++ WriteZZarray [5, 2] ∧
    ReadZZarray leaf2.elements = some [5] ∧
    ReadZZarray leaf2after.elements = some [5] ∧
    ReadZZarray leaf2after.elements ≠ some ([5] ++ [2]) := by decide

/-- C3 fails on the code: `split` discards the freshly created child records,
never writes them to the store, and never fills `childKeys`, so the node never
becomes internal — redistribution then dereferences a child of a node that is
still a leaf and panics (`leaf2` under `cfgB` exceeds the threshold and has one
stored element), and even a split with an empty payload (`leaf4`) leaves the
node a leaf with no children. -/
theorem split_keeps_node_leaf :
    cfgB.splitThreshold < leaf2.elements.length ∧
    treeInsert 5 cfgB store2 2 = Except.error PErr.leafNode ∧
    splitNode 5 cfgB store4 leaf4 0 = Except.ok leaf4split ∧
    leaf4split.childKeys = [] ∧
    IsLeaf leaf4split = true := by decide

/-- C5 fails on the code: the insert path of ptree.go contains no node-store
write at all, so after a successful `Insert(2)` that updated the root record in
memory (`rootAafter`, with bumped count, multiplied svalues, extended payload)
a fetch of the root's key still returns the pre-insert record `rootA`. -/
theorem insert_not_persisted :
    treeInsert 5 cfgA storeA 2 = Except.ok [(rootA, rootAafter)] ∧
    rootAafter.numElements = 1 ∧
    fetch storeA [] = some rootA ∧
    rootA.numElements = 0 ∧
    rootA ≠ rootAafter := by decide

/-- C7 fails on the code: no increment of `numElements` is ever persisted, so
after two completed inserts (of `2` and of `3`) that both visited the root, the
stored root record still carries `numElements = 0` — and the second insert
already read the stale count `0` rather than `1`. -/
theorem numElements_not_accumulated :
    treeInsert 5 cfgA storeA 2 = Except.ok [(rootA, rootAafter)] ∧
    treeInsert 5 cfgA storeA 3 = Except.ok [(rootA, rootAafter3)] ∧
    fetch storeA [] = some rootA ∧
    rootA.numElements = 0 ∧
    rootA.numElements ≠ 2 := by decide

/-- C9: for field elements of equal (positive) modulus, `Add` yields the
normalized modular sum and `Mul` the normalized modular product, both in
`[0, P)`; and `NewZp` on any integer, negative included, produces a value in
`[0, P)`. -/
theorem zp_add_mul_normalized (x y : Zp) (hxy : x.P = y.P) (hp : 0 < x.P) :
    Zp.Add (Z x.P) x y = some { val := (x.val + y.val).emod x.P, P := x.P } ∧
    Zp.Mul (Z x.P) x y = some { val := (x.val * y.val).emod x.P, P := x.P } ∧
    0 ≤ (x.val + y.val).emod x.P ∧ (x.val + y.val).emod x.P < x.P ∧
    0 ≤ (x.val * y.val).emod x.P ∧ (x.val * y.val).emod x.P < x.P ∧
    ∀ p n : Int, 0 < p → 0 ≤ (NewZp p n).val ∧ (NewZp p n).val < p := by
  have hne : x.P ≠ 0 := ne_of_gt hp
  refine ⟨?_, ?_, Int.emod_nonneg _ hne, Int.emod_lt_of_pos _ hp,
    Int.emod_nonneg _ hne, Int.emod_lt_of_pos _ hp, ?_⟩
  · simp [Zp.Add, Z, Zp.Norm, hxy]
  · simp [Zp.Mul, Z, Zp.Norm, hxy]
  · intro p n hp0
    exact ⟨Int.emod_nonneg _ (ne_of_gt hp0), Int.emod_lt_of_pos _ hp0⟩

/-- C9 witness: the theorem applied at `x = 3`, `y = 5` in `Z(7)`. -/
theorem zp_add_mul_normalized_witness :
    Zp.Add (Z (Zp.mk 3 7).P) (Zp.mk 3 7) (Zp.mk 5 7) =
      some { val := ((3 : Int) + 5).emod 7, P := 7 } ∧
    Zp.Mul (Z (Zp.mk 3 7).P) (Zp.mk 3 7) (Zp.mk 5 7) =
      some { val := ((3 : Int) * 5).emod 7, P := 7 } ∧
    0 ≤ ((3 : Int) + 5).emod 7 ∧ ((3 : Int) + 5).emod 7 < 7 ∧
    0 ≤ ((3 : Int) * 5).emod 7 ∧ ((3 : Int) * 5).emod 7 < 7 ∧
    ∀ p n : Int, 0 < p → 0 ≤ (NewZp p n).val ∧ (NewZp p n).val < p :=
  zp_add_mul_normalized (Zp.mk 3 7) (Zp.mk 5 7) rfl (by decide)

/-- C10: the pointer-level `Add` and `Mul` return the receiver pointer itself
with the normalized result stored in the receiver's cell, and when the receiver
is distinct from both operands, neither operand's cell is modified. -/
theorem zp_ops_alias_receiver (h : ZpHeap) (r x y : Nat)
    (hrx : r ≠ x) (hry : r ≠ y)
    (hpx : (h r).P = (h x).P) (hpy : (h r).P = (h y).P) :
    ∃ ha hm : ZpHeap,
      zpAddRef h r x y = some (r, ha) ∧
      zpMulRef h r x y = some (r, hm) ∧
      ha x = h x ∧ ha y = h y ∧ hm x = h x ∧ hm y = h y ∧
      ha r = Zp.Norm { h r with val := (h x).val + (h y).val } ∧
      hm r = Zp.Norm { h r with val := (h x).val * (h y).val } := by
  refine ⟨heapUpd h r (Zp.Norm { h r with val := (h x).val + (h y).val }),
    heapUpd h r (Zp.Norm { h r with val := (h x).val * (h y).val }),
    ?_, ?_, ?_, ?_, ?_, ?_, ?_, ?_⟩
  · unfold zpAddRef
    rw [if_pos ⟨hpx, hpy⟩]
  · unfold zpMulRef
    rw [if_pos ⟨hpx, hpy⟩]
  · simp [heapUpd, Ne.symm hrx]
  · simp [heapUpd, Ne.symm hry]
  · simp [heapUpd, Ne.symm hrx]
  · simp [heapUpd, Ne.symm hry]
  · simp [heapUpd]
  · simp [heapUpd]

/-- C10 witness: the theorem applied on the concrete heap `heapBase` with
receiver cell 0 and operand cells 1 and 2. -/
theorem zp_ops_alias_receiver_witness :
    ∃ ha hm : ZpHeap,
      zpAddRef heapBase 0 1 2 = some (0, ha) ∧
      zpMulRef heapBase 0 1 2 = some (0, hm) ∧
      ha 1 = heapBase 1 ∧ ha 2 = heapBase 2 ∧ hm 1 = heapBase 1 ∧ hm 2 = heapBase 2 ∧
      ha 0 = Zp.Norm { heapBase 0 with val := (heapBase 1).val + (heapBase 2).val } ∧
      hm 0 = Zp.Norm { heapBase 0 with val := (heapBase 1).val * (heapBase 2).val } :=
  zp_ops_alias_receiver heapBase 0 1 2 (by decide) (by decide) rfl rfl

/-- The byte-copy into a fresh bitstring keeps the source's first `n` bits and
zero-fills the rest. -/
theorem bsSetBytes_bsNew (n : Nat) (src : List Bool) :
    bsSetBytes (bsNew n) src = src.take n ++ List.replicate (n - src.length) false := by
  apply List.ext_getElem
  · simp [bsSetBytes, bsNew]
    omega
  · intro k h1 h2
    simp only [bsSetBytes, bsNew, List.length_replicate, List.length_map, List.length_range] at h1
    simp only [bsSetBytes, bsNew, List.length_replicate]
    rw [List.getElem_map, List.getElem_range]
    rcases Nat.lt_or_ge k src.length with hk | hk
    · rw [List.getElem_append_left (by simp [List.length_take]; omega)]
      rw [List.getElem_take]
      exact List.getD_eq_getElem src false hk
    · rw [List.getElem_append_right (by simp [List.length_take]; omega)]
      rw [List.getElem_replicate]
      exact List.getD_eq_default src false hk

/-- The set/unset loop writes exactly the child index's low bits into the
positions after the parent key. -/
theorem foldIdx (pk : List Bool) (i : Nat) :
    ∀ (q Q : Nat), q ≤ Q →
      (List.range q).foldl
        (fun ck j =>
          if (i >>> j) &&& 1 == 1 then bsSet ck (pk.length + j)
          else bsUnset ck (pk.length + j))
        (pk ++ List.replicate Q false)
      = pk ++ idxBits q i ++ List.replicate (Q - q) false := by
  intro q
  induction q with
  | zero =>
    intro Q hq
    simp [idxBits]
  | succ q ih =>
    intro Q hq
    rw [List.range_succ, List.foldl_append, ih Q (by omega)]
    have hlen : (pk ++ idxBits q i).length = pk.length + q := by
      simp [idxBits]
    have hrep : List.replicate (Q - q) (false : Bool)
        = false :: List.replicate (Q - (q + 1)) false := by
      rw [← List.replicate_succ]
      congr 1
      omega
    have hidx : idxBits (q + 1) i = idxBits q i ++ [(i >>> q) &&& 1 == 1] := by
      simp [idxBits, List.range_succ]
    have hstep : ∀ b : Bool,
        (pk ++ idxBits q i ++ List.replicate (Q - q) false).set (pk.length + q) b
          = pk ++ (idxBits q i ++ [b]) ++ List.replicate (Q - (q + 1)) false := by
      intro b
      rw [List.set_append_right _ _ (le_of_eq hlen)]
      rw [hlen, Nat.sub_self, hrep, List.set_cons_zero]
      simp [List.append_assoc]
    simp only [List.foldl_cons, List.foldl_nil]
    cases hb : (i >>> q) &&& 1 == 1 with
    | true =>
      simp only [hb, bsSet]
      rw [hstep true, hidx, hb]
      simp
    | false =>
      simp only [hb, bsUnset]
      rw [hstep false, hidx, hb]
      simp

/-- `newChildNode`'s key construction appends the `bitQuantum`-bit index to the
parent key. -/
theorem appendIdx_full (pk : List Bool) (q i : Nat) :
    appendIdx (pk.length + q) pk q i = pk ++ idxBits q i := by
  rw [appendIdx, bsSetBytes_bsNew]
  rw [List.take_of_length_le (by omega), Nat.add_sub_cancel_left]
  rw [foldIdx pk i q q le_rfl, Nat.sub_self]
  simp

/-- C8: a child created by `newChildNode` carries the parent's key with the
child index appended in `bitQuantum` bits, `Parent` on that child strips the
trailing `bitQuantum` bits, recovering the parent's key and fetching the parent
record, and `Parent` on a root (zero-length key) reports that no parent
exists. -/
theorem child_key_parent_roundtrip (cfg : Config) (store : Store)
    (parent pn rootN : nodeData) (i : Nat)
    (hq : 0 < cfg.bitQuantum) (hroot : rootN.key = [])
    (hfetch : fetch store parent.key = some pn) :
    (newChildNode cfg parent i).key = parent.key ++ idxBits cfg.bitQuantum i ∧
    Parent cfg store (newChildNode cfg parent i) = Except.ok (some pn) ∧
    Parent cfg store rootN = Except.ok none := by
  have hkey : (newChildNode cfg parent i).key = parent.key ++ idxBits cfg.bitQuantum i :=
    appendIdx_full parent.key cfg.bitQuantum i
  refine ⟨hkey, ?_, ?_⟩
  · have hne : (newChildNode cfg parent i).key ≠ [] := by
      rw [hkey]
      intro hcon
      have hcl := congrArg List.length hcon
      simp [idxBits] at hcl
      omega
    have hpk : bsSetBytes
        (bsNew ((newChildNode cfg parent i).key.length - cfg.bitQuantum))
        (newChildNode cfg parent i).key = parent.key := by
      rw [hkey]
      have hL : (parent.key ++ idxBits cfg.bitQuantum i).length - cfg.bitQuantum
          = parent.key.length := by
        simp [idxBits]
      rw [hL, bsSetBytes_bsNew, List.take_left' rfl]
      have hz : parent.key.length - (parent.key ++ idxBits cfg.bitQuantum i).length = 0 := by
        simp [idxBits]
      rw [hz]
      simp
    unfold Parent
    rw [if_neg hne, hpk, hfetch]
  · unfold Parent
    rw [if_pos hroot]

/-- C8 witness: child index 2 of the parent `leafC` under `bitQuantum = 2`,
with the parent present in `storeLeafC` and `rootC` as the root. -/
theorem child_key_parent_roundtrip_witness :
    (newChildNode cfgC leafC 2).key = leafC.key ++ idxBits cfgC.bitQuantum 2 ∧
    Parent cfgC storeLeafC (newChildNode cfgC leafC 2) = Except.ok (some leafC) ∧
    Parent cfgC storeLeafC rootC = Except.ok none :=
  child_key_parent_roundtrip cfgC storeLeafC leafC leafC rootC 2 (by decide) rfl (by decide)


/-- Bridge between the explicit `Int.emod` spelling and the `%` notation. -/
theorem emod_eq_mod (a b : Int) : a.emod b = a % b := rfl

/-- A read of a written array ignores any trailing bytes and returns the
array. -/
theorem ReadZZarray_WriteZZarray_append (l junk : List Int) :
    ReadZZarray (WriteZZarray l ++ junk) = some l := by
  simp only [ReadZZarray, WriteZZarray, List.cons_append]
  rw [if_pos]
  · simp [Int.toNat_natCast, List.take_left' rfl]
  · constructor
    · exact Int.natCast_nonneg l.length
    · simp [Int.toNat_natCast]

/-- Serialization round-trip for integer arrays. -/
theorem ReadZZarray_WriteZZarray (l : List Int) :
    ReadZZarray (WriteZZarray l) = some l := by
  have h := ReadZZarray_WriteZZarray_append l []
  simpa using h

/-- Pointwise value of the svalue multiplication loop. -/
theorem mulSvalues_getD (p : Int) (sv marray : List Int) (j : Nat)
    (hj : j < marray.length) (hle : marray.length ≤ sv.length) :
    (mulSvalues p sv marray).getD j 0 = ((sv.getD j 0) * (marray.getD j 0)).emod p := by
  have hz : j < (List.zipWith (fun s m => (s * m).emod p) sv marray).length := by
    rw [List.length_zipWith]
    omega
  rw [mulSvalues, List.getD_append _ _ _ _ hz, List.getD_eq_getElem _ _ hz,
    List.getElem_zipWith]
  rw [List.getD_eq_getElem sv 0 (by omega), List.getD_eq_getElem marray 0 hj]

/-- A successful `updateSvalues` read the stored svalues, required the delta
vector to match the sample count, and wrote back the pointwise products. -/
theorem updateSvalues_spec {cfg : Config} {n n1 : nodeData} {marray : List Int}
    (h : updateSvalues cfg n marray = some n1) :
    ∃ sv, ReadZZarray n.svalues = some sv ∧
      marray.length = cfg.points.length ∧
      marray.length ≤ sv.length ∧
      n1.svalues = WriteZZarray (mulSvalues cfg.p sv marray) := by
  unfold updateSvalues at h
  split at h
  case isTrue hlen =>
    split at h
    case h_1 heq => cases h
    case h_2 sv heq =>
      split at h
      case isTrue hle =>
        cases h
        exact ⟨sv, heq, hlen, hle, rfl⟩
      case isFalse hle => cases h
  case isFalse hlen => cases h

/-- A (hypothetical) successful split changes only the leaf payload. -/
theorem splitNode_svalues {fuel : Nat} {cfg : Config} {store : Store} {n m : nodeData}
    {depth : Nat} (h : splitNode fuel cfg store n depth = Except.ok m) :
    m.svalues = n.svalues ∧ m.numElements = n.numElements ∧ m.key = n.key := by
  cases fuel with
  | zero => cases h
  | succ fuel =>
    unfold splitNode at h
    split at h
    case h_1 heq => cases h
    case h_2 elts heq =>
      split at h
      case h_1 e heq2 => cases h
      case h_2 u heq2 =>
        cases h
        exact ⟨rfl, rfl, rfl⟩

/-- Along any successful insert, every visited node record has its parsed
svalues multiplied pointwise by the delta vector. -/
theorem insertNode_path_spec :
    ∀ (fuel : Nat) (cfg : Config) (store : Store) (n : nodeData)
      (z : Int) (marray : List Int) (bs : List Bool) (depth : Nat)
      (path : List (nodeData × nodeData)),
      insertNode fuel cfg store n z marray bs depth = Except.ok path →
      ∀ pr ∈ path, ∃ sv, ReadZZarray pr.1.svalues = some sv ∧
        marray.length = cfg.points.length ∧
        marray.length ≤ sv.length ∧
        ReadZZarray pr.2.svalues = some (mulSvalues cfg.p sv marray) := by
  intro fuel
  induction fuel with
  | zero =>
    intro cfg store n z marray bs depth path h
    cases h
  | succ fuel ih =>
    intro cfg store n z marray bs depth path h
    unfold insertNode at h
    split at h
    case h_1 heq => cases h
    case h_2 n1 hupd =>
      obtain ⟨sv, hrd, hlen, hle, hsv⟩ := updateSvalues_spec hupd
      simp only [] at h
      split at h
      case isTrue hleaf =>
        split at h
        case isTrue hthr =>
          -- split path
          split at h
          case h_1 e heq => cases h
          case h_2 n3 hsplit =>
            split at h
            case h_1 e heq => cases h
            case h_2 child hnext =>
              split at h
              case h_1 e heq => cases h
              case h_2 path2 hins =>
                cases h
                intro pr hpr
                rcases List.mem_cons.mp hpr with hhd | htl
                · subst hhd
                  refine ⟨sv, hrd, hlen, hle, ?_⟩
                  have hs3 := (splitNode_svalues hsplit).1
                  simp only [hs3, hsv]
                  exact ReadZZarray_WriteZZarray _
                · exact ih cfg store child z marray bs (depth + 1) path2 hins pr htl
        case isFalse hthr =>
          -- leaf append
          split at h
          case h_1 heq => cases h
          case h_2 elts heq =>
            cases h
            intro pr hpr
            rcases List.mem_singleton.mp hpr with rfl
            refine ⟨sv, hrd, hlen, hle, ?_⟩
            simp only [hsv]
            exact ReadZZarray_WriteZZarray _
      case isFalse hleaf =>
        split at h
        case h_1 e heq => cases h
        case h_2 child hnext =>
          split at h
          case h_1 e heq => cases h
          case h_2 path2 hins =>
            cases h
            intro pr hpr
            rcases List.mem_cons.mp hpr with hhd | htl
            · subst hhd
              refine ⟨sv, hrd, hlen, hle, ?_⟩
              simp only [hsv]
              exact ReadZZarray_WriteZZarray _
            · exact ih cfg store child z marray bs (depth + 1) path2 hins pr htl

/-- C4: after a completed `Insert(z)`, every node on the root-to-leaf insertion
path has each sample value equal to its pre-insert value multiplied by
`(point_j - z)` modulo `P`, with the delta vector computed once at the tree
level (`treeInsert` passes `AddElementArray cfg z` unchanged to every visited
node). -/
theorem insert_path_svalues_multiplied (fuel : Nat) (cfg : Config) (store : Store)
    (z : Int) (path : List (nodeData × nodeData))
    (hok : treeInsert fuel cfg store z = Except.ok path) :
    ∀ pr ∈ path, ∀ j, j < cfg.points.length →
      ∃ svb sva, ReadZZarray pr.1.svalues = some svb ∧ ReadZZarray pr.2.svalues = some sva ∧
        sva.getD j 0 = ((svb.getD j 0) * (cfg.points.getD j 0 - z)).emod cfg.p := by
  unfold treeInsert at hok
  split at hok
  case h_1 => cases hok
  case h_2 root hroot =>
    intro pr hpr j hj
    obtain ⟨sv, hrb, hlen, hle, hra⟩ :=
      insertNode_path_spec _ _ _ _ _ _ _ _ _ hok pr hpr
    refine ⟨sv, mulSvalues cfg.p sv (AddElementArray cfg z), hrb, hra, ?_⟩
    have hjm : j < (AddElementArray cfg z).length := by
      simp only [AddElementArray, List.length_map]
      omega
    rw [mulSvalues_getD _ _ _ j hjm hle]
    have hmg : (AddElementArray cfg z).getD j 0 = (cfg.points.getD j 0 - z).emod cfg.p := by
      rw [List.getD_eq_getElem _ _ hjm]
      simp only [AddElementArray, List.getElem_map]
      rw [List.getD_eq_getElem _ _ hj]
    rw [hmg]
    simp only [emod_eq_mod]
    conv_rhs => rw [Int.mul_emod]
    conv_lhs => rw [Int.mul_emod]
    rw [Int.emod_emod]

/-- C4 witness: the theorem applied to the completed insert of `2` into
`storeA`, at the root pair of the returned path and sample index 0. -/
theorem insert_path_svalues_multiplied_witness :
    ∃ svb sva, ReadZZarray (rootA, rootAafter).1.svalues = some svb ∧
      ReadZZarray (rootA, rootAafter).2.svalues = some sva ∧
      sva.getD 0 0 = ((svb.getD 0 0) * (cfgA.points.getD 0 0 - 2)).emod cfgA.p :=
  insert_path_svalues_multiplied 5 cfgA storeA 2 [(rootA, rootAafter)] (by decide)
    (rootA, rootAafter) (by decide) 0 (by decide)
